import Mathlib

/-!
Verification development for the Auralis frontend.

Part 1 embeds the polling loops of
`components/VideoPlayerModal.tsx` (`fetchTranscriptData` and
`fetchAnalysisData`, which are structurally identical) as an explicit
event-driven state machine.

Part 2 embeds the pure metric helpers of `lib/s3-helpers.ts` and
`lib/analysis-utils.ts` together with the summary-route key derivation
of `app/api/recordings/summary/route.ts`.

Conventions of the embedding:
* JavaScript numbers are represented by rationals; `parseFloat` applied
  to the time fields of segments is represented by storing the parsed
  rational directly in the record.
* Strings are Lean strings; characters are unicode scalars (the source
  only manipulates ASCII in the relevant places).
* The tri-state outcome of one poll tick (route request plus S3 fetch
  plus JSON parse) is a single `FetchResult`.
-/

namespace Auralis

/-! ## Polling state machine (VideoPlayerModal.tsx, lines 106-259) -/

/-- Error kinds of a failed tick.  In the source every failure that is not
the `exists: false` route response is thrown and caught by the same
`catch` block, so the three kinds are handled identically. -/
inductive ErrKind
  | unauthorized
  | transport
  | malformed
  deriving DecidableEq, Repr

/-- Outcome of one poll tick, as observed by the effect callback:
`ready d` models a successful parse of the artifact JSON (the payload is
abstracted to a natural number), `notReady` models the route answering
with `exists: false`, and `err k` models any thrown failure. -/
inductive FetchResult
  | ready (data : Nat)
  | notReady
  | err (kind : ErrKind)
  deriving DecidableEq, Repr

/-- State of one polling effect instance.

* `isMounted` models the `isMounted` flag of the effect closure.
* `intervalArmed` models `pollInterval` being non-null, that is the
  repeating timer being armed.
* `inFlight` counts fetch callbacks that have started (performed their
  network calls) but whose result has not yet been processed.
* `delivered` lists the payloads passed to the subscriber via
  `setTranscript` / `setAnalysisData`, in order.
* `fetchCalls` counts how many fetch callbacks ever started their
  network round trips. -/
structure PollState where
  isMounted : Bool
  intervalArmed : Bool
  inFlight : Nat
  delivered : List Nat
  fetchCalls : Nat
  deriving DecidableEq, Repr

/-- Events of the event loop driving one polling instance. -/
inductive PollEvent
  | tickFire
  | resolve (r : FetchResult)
  | stop
  deriving DecidableEq, Repr

/-- One step of the polling effect.

* `tickFire`: the interval timer fires.  A cleared timer never fires, so
  nothing happens unless `intervalArmed`; the callback first checks
  `isMounted` and only then performs its network calls.
* `resolve r`: one in-flight callback observes its result.  With no
  callback in flight nothing can resolve.  A `notReady` or `err` result
  only logs and returns.  A `ready` result is delivered and the interval
  cleared, but only behind the `isMounted` guard.
* `stop`: the effect cleanup runs, synchronously setting
  `isMounted = false` and clearing the interval. -/
def pollStep (s : PollState) (e : PollEvent) : PollState :=
  match e with
  | .tickFire =>
    if s.intervalArmed then
      if s.isMounted then
        { s with inFlight := s.inFlight + 1, fetchCalls := s.fetchCalls + 1 }
      else s
    else s
  | .resolve r =>
    if s.inFlight = 0 then s
    else
      let s1 := { s with inFlight := s.inFlight - 1 }
      match r with
      | .ready d =>
        if s1.isMounted then
          { s1 with delivered := s1.delivered ++ [d], intervalArmed := false }
        else s1
      | .notReady => s1
      | .err _ => s1
  | .stop => { s with isMounted := false, intervalArmed := false }

/-- Run a list of events from a state. -/
def pollRun (s : PollState) (es : List PollEvent) : PollState :=
  es.foldl pollStep s

/-- State right after the effect body ran: the initial immediate
`fetchTranscriptData()` call is in flight and `setInterval` has armed
the timer. -/
def pollInit : PollState :=
  { isMounted := true, intervalArmed := true, inFlight := 1
    delivered := [], fetchCalls := 1 }

theorem pollRun_nil (s : PollState) : pollRun s [] = s := rfl

theorem pollRun_cons (s : PollState) (e : PollEvent) (es : List PollEvent) :
    pollRun s (e :: es) = pollRun (pollStep s e) es := rfl

theorem pollRun_append (s : PollState) (es es' : List PollEvent) :
    pollRun s (es ++ es') = pollRun (pollRun s es) es' :=
  List.foldl_append _ _ _ _

/-- After cleanup, every later event leaves the subscriber-visible parts
of the state untouched: nothing more is delivered, no further network
call starts, and neither flag ever comes back on. -/
theorem pollRun_stopped (es : List PollEvent) :
    ∀ s : PollState, s.isMounted = false → s.intervalArmed = false →
      (pollRun s es).delivered = s.delivered ∧
      (pollRun s es).fetchCalls = s.fetchCalls ∧
      (pollRun s es).isMounted = false ∧
      (pollRun s es).intervalArmed = false := by
  induction es with
  | nil => intro s hm ha; exact ⟨rfl, rfl, hm, ha⟩
  | cons e es ih =>
    intro s hm ha
    have hstep : (pollStep s e).delivered = s.delivered ∧
        (pollStep s e).fetchCalls = s.fetchCalls ∧
        (pollStep s e).isMounted = false ∧
        (pollStep s e).intervalArmed = false := by
      cases e with
      | tickFire => simp [pollStep, ha, hm]
      | stop => simp [pollStep]
      | resolve r =>
        cases r with
        | ready d => by_cases h0 : s.inFlight = 0 <;> simp [pollStep, h0, hm, ha]
        | notReady => by_cases h0 : s.inFlight = 0 <;> simp [pollStep, h0, hm, ha]
        | err k => by_cases h0 : s.inFlight = 0 <;> simp [pollStep, h0, hm, ha]
    obtain ⟨hd, hf, hm', ha'⟩ := hstep
    obtain ⟨d2, f2, m2, a2⟩ := ih (pollStep s e) hm' ha'
    rw [pollRun_cons]
    exact ⟨d2.trans hd, f2.trans hf, m2, a2⟩

/-- Invariant used for the once-only delivery argument: the delivered
list has at most one element, and once something was delivered the
interval is cleared and nothing is in flight anymore.  The hypothesis
`hone` restricts attention to executions in which at most one callback
is ever in flight at a time (each fetch settles before the next timer
tick fires). -/
theorem pollRun_once_inv (es : List PollEvent) :
    ∀ s : PollState,
      s.delivered.length ≤ 1 →
      (s.delivered ≠ [] → s.intervalArmed = false ∧ s.inFlight = 0) →
      (∀ n : Nat, (pollRun s (es.take n)).inFlight ≤ 1) →
      (pollRun s es).delivered.length ≤ 1 ∧
      ((pollRun s es).delivered ≠ [] →
        (pollRun s es).intervalArmed = false ∧ (pollRun s es).inFlight = 0) ∧
      (s.delivered ≠ [] →
        (pollRun s es).fetchCalls = s.fetchCalls ∧
        (pollRun s es).delivered = s.delivered) := by
  induction es with
  | nil => intro s h1 h2 _; exact ⟨h1, h2, fun _ => ⟨rfl, rfl⟩⟩
  | cons e es ih =>
    intro s h1 h2 hone
    have hs1 : s.inFlight ≤ 1 := by
      have := hone 0
      simpa [pollRun] using this
    have hone' : ∀ n : Nat, (pollRun (pollStep s e) (es.take n)).inFlight ≤ 1 := by
      intro n
      have := hone (n + 1)
      simpa [List.take_succ_cons, pollRun_cons] using this
    -- step preservation of the invariant
    have hstep1 : (pollStep s e).delivered.length ≤ 1 ∧
        ((pollStep s e).delivered ≠ [] →
          (pollStep s e).intervalArmed = false ∧ (pollStep s e).inFlight = 0) := by
      cases e with
      | tickFire =>
        by_cases ha : s.intervalArmed
        · by_cases hmm : s.isMounted
          · refine ⟨by simpa [pollStep, ha, hmm] using h1, ?_⟩
            intro hne
            have hne' : s.delivered ≠ [] := by
              simpa [pollStep, ha, hmm] using hne
            exact absurd (h2 hne').1 (by simp [ha])
          · exact ⟨by simpa [pollStep, ha, hmm] using h1,
              fun hne => by
                have hne' : s.delivered ≠ [] := by simpa [pollStep, ha, hmm] using hne
                simpa [pollStep, ha, hmm] using h2 hne'⟩
        · exact ⟨by simpa [pollStep, ha] using h1,
            fun hne => by
              have hne' : s.delivered ≠ [] := by simpa [pollStep, ha] using hne
              simpa [pollStep, ha] using h2 hne'⟩
      | stop =>
        refine ⟨by simpa [pollStep] using h1, fun hne => ?_⟩
        have hne' : s.delivered ≠ [] := by simpa [pollStep] using hne
        exact ⟨by simp [pollStep], by simpa [pollStep] using (h2 hne').2⟩
      | resolve r =>
        by_cases h0 : s.inFlight = 0
        · refine ⟨by simpa [pollStep, h0] using h1, fun hne => ?_⟩
          have hne' : s.delivered ≠ [] := by simpa [pollStep, h0] using hne
          simpa [pollStep, h0] using h2 hne'
        · have hdnil : s.delivered = [] := by
            by_contra hne
            exact h0 (h2 hne).2
          have hifl : s.inFlight = 1 := by omega
          cases r with
          | ready d =>
            by_cases hmm : s.isMounted
            · refine ⟨by simp [pollStep, h0, hmm, hdnil], fun _ => ?_⟩
              simp [pollStep, h0, hmm, hifl]
            · exact ⟨by simpa [pollStep, h0, hmm] using h1,
                fun hne => by
                  have hne' : s.delivered ≠ [] := by
                    simpa [pollStep, h0, hmm] using hne
                  exact absurd hne' (by simp [hdnil])⟩
          | notReady =>
            exact ⟨by simpa [pollStep, h0] using h1,
              fun hne => by
                have hne' : s.delivered ≠ [] := by simpa [pollStep, h0] using hne
                exact absurd hne' (by simp [hdnil])⟩
          | err k =>
            exact ⟨by simpa [pollStep, h0] using h1,
              fun hne => by
                have hne' : s.delivered ≠ [] := by simpa [pollStep, h0] using hne
                exact absurd hne' (by simp [hdnil])⟩
    obtain ⟨j1, j2⟩ := hstep1
    obtain ⟨k1, k2, k3⟩ := ih (pollStep s e) j1 j2 hone'
    refine ⟨by simpa [pollRun_cons] using k1, by simpa [pollRun_cons] using k2, ?_⟩
    intro hne
    -- once delivered, the state is absorbing for the observable fields
    obtain ⟨ha, h0⟩ := h2 hne
    have hfix : pollStep s e = s ∨
        (pollStep s e).delivered = s.delivered ∧
        (pollStep s e).fetchCalls = s.fetchCalls ∧
        (pollStep s e).isMounted = false ∧
        (pollStep s e).intervalArmed = false := by
      cases e with
      | tickFire => left; simp [pollStep, ha]
      | resolve r => left; simp [pollStep, h0]
      | stop => right; simp [pollStep]
    rcases hfix with hfix | ⟨hd, hf, hm', ha'⟩
    · have := k3 (by rw [hfix]; exact hne)
      rw [pollRun_cons]
      exact ⟨(this.1).trans (by rw [hfix]), (this.2).trans (by rw [hfix])⟩
    · have hstop := pollRun_stopped es (pollStep s e) hm' ha'
      rw [pollRun_cons]
      exact ⟨hstop.2.1.trans hf, hstop.1.trans hd⟩

/-- Claim C1: once the subscriber cancels (`stop()` / unmount), no result
of any kind is ever delivered afterwards — a fetch already in flight has
its result discarded on arrival — and no further tick is ever armed or
fired: after the cleanup event, along every possible continuation the
delivered list and the fetch-call counter stay exactly what they were at
cancellation time and the interval stays cleared. -/
theorem C1_cancellation_race_safe (es tail : List PollEvent) :
    (pollRun (pollStep (pollRun pollInit es) PollEvent.stop) tail).delivered
      = (pollRun pollInit es).delivered ∧
    (pollRun (pollStep (pollRun pollInit es) PollEvent.stop) tail).fetchCalls
      = (pollRun pollInit es).fetchCalls ∧
    (pollRun (pollStep (pollRun pollInit es) PollEvent.stop) tail).isMounted = false ∧
    (pollRun (pollStep (pollRun pollInit es) PollEvent.stop) tail).intervalArmed = false := by
  have h := pollRun_stopped tail (pollStep (pollRun pollInit es) PollEvent.stop)
    (by simp [pollStep]) (by simp [pollStep])
  refine ⟨h.1.trans (by simp [pollStep]), h.2.1.trans (by simp [pollStep]), h.2.2.1, h.2.2.2⟩

/-- Claim C2, counterexample: with two callbacks in flight at once (the
initial immediate call still pending when the 5 s timer fires), both may
resolve `ready`; the `isMounted` guard lets both through, so the
subscriber receives two `Ready` deliveries from one instance.  The claim
that at most one `Ready` is ever emitted is therefore false of the code
as soon as a fetch outlasts the polling interval. -/
theorem C2_two_ready_deliveries :
    (pollRun pollInit
      [PollEvent.tickFire,
       PollEvent.resolve (FetchResult.ready 1),
       PollEvent.resolve (FetchResult.ready 2)]).delivered = [1, 2] ∧
    ¬ (pollRun pollInit
      [PollEvent.tickFire,
       PollEvent.resolve (FetchResult.ready 1),
       PollEvent.resolve (FetchResult.ready 2)]).delivered.length ≤ 1 := by
  constructor
  · rfl
  · decide

/-- Claim C2 (amended): provided at most one callback is ever in flight
at a time — each fetch settles before the next interval tick fires,
which is the regime the reference behavior assumes — the controller
delivers at most one `Ready` payload over its whole lifetime, and once a
payload has been delivered no further fetch call ever starts and the
delivered list never changes again. -/
theorem C2_single_ready_no_overlap (es es' : List PollEvent)
    (hone : ∀ n : Nat, (pollRun pollInit ((es ++ es').take n)).inFlight ≤ 1) :
    (pollRun pollInit (es ++ es')).delivered.length ≤ 1 ∧
    ((pollRun pollInit es).delivered ≠ [] →
      (pollRun pollInit (es ++ es')).fetchCalls = (pollRun pollInit es).fetchCalls ∧
      (pollRun pollInit (es ++ es')).delivered = (pollRun pollInit es).delivered) := by
  have hinit1 : (pollInit : PollState).delivered.length ≤ 1 := by decide
  have hinit2 : (pollInit : PollState).delivered ≠ [] →
      (pollInit : PollState).intervalArmed = false ∧ (pollInit : PollState).inFlight = 0 := by
    intro h; exact absurd rfl h
  have honePre : ∀ n : Nat, (pollRun pollInit (es.take n)).inFlight ≤ 1 := by
    intro n
    by_cases hn : n ≤ es.length
    · have htake : (es ++ es').take n = es.take n := List.take_append_of_le_length hn
      have := hone n
      rwa [htake] at this
    · have htake : es.take n = es := List.take_of_length_le (by omega)
      have htake2 : (es ++ es').take (es.length + (n - es.length)) =
          es ++ es'.take (n - es.length) := by
        simpa using @List.take_append _ es es' (n - es.length)
      have h2 := hone (es.length + (n - es.length))
      rw [htake2, pollRun_append] at h2
      rw [htake]
      -- inFlight at the midpoint is bounded by the prefix hypothesis at length es
      have htake3 : (es ++ es').take es.length = es := by
        simp
      have h3 := hone es.length
      rwa [htake3] at h3
  obtain ⟨a1, _, _⟩ := pollRun_once_inv es pollInit hinit1 hinit2 honePre
  have hmid2 : (pollRun pollInit es).delivered ≠ [] →
      (pollRun pollInit es).intervalArmed = false ∧ (pollRun pollInit es).inFlight = 0 :=
    (pollRun_once_inv es pollInit hinit1 hinit2 honePre).2.1
  have hone' : ∀ n : Nat, (pollRun (pollRun pollInit es) (es'.take n)).inFlight ≤ 1 := by
    intro n
    have htake : (es ++ es').take (es.length + n) = es ++ es'.take n := by
      simpa using @List.take_append _ es es' n
    have := hone (es.length + n)
    rwa [htake, pollRun_append] at this
  obtain ⟨b1, _, b3⟩ := pollRun_once_inv es' (pollRun pollInit es) a1 hmid2 hone'
  rw [pollRun_append]
  exact ⟨b1, b3⟩

/-- Witness for the amended claim C2 at a concrete non-overlapping
execution: the initial fetch resolves `ready`, then one more timer event
arrives; exactly one payload was delivered and no further fetch call
started. -/
theorem C2_single_ready_no_overlap_witness :
    (pollRun pollInit
      ([PollEvent.resolve (FetchResult.ready 7)] ++ [PollEvent.tickFire])).delivered.length ≤ 1 ∧
    (pollRun pollInit
      ([PollEvent.resolve (FetchResult.ready 7)] ++ [PollEvent.tickFire])).fetchCalls
      = (pollRun pollInit [PollEvent.resolve (FetchResult.ready 7)]).fetchCalls := by
  have h := C2_single_ready_no_overlap
    [PollEvent.resolve (FetchResult.ready 7)] [PollEvent.tickFire]
    (by
      intro n
      match n with
      | 0 => decide
      | 1 => decide
      | Nat.succ (Nat.succ m) =>
        have htake : ([PollEvent.resolve (FetchResult.ready 7)] ++
            [PollEvent.tickFire]).take (m + 2) =
            [PollEvent.resolve (FetchResult.ready 7)] ++ [PollEvent.tickFire] :=
          List.take_of_length_le (by simp)
        rw [htake]; decide)
  exact ⟨h.1, (h.2 (by decide)).1⟩

/-- Trace with the initial fetch resolving `notReady` followed by `n`
further tick-and-`notReady` rounds. -/
def notReadyTrace : Nat → List PollEvent
  | 0 => [PollEvent.resolve FetchResult.notReady]
  | n + 1 => notReadyTrace n ++ [PollEvent.tickFire, PollEvent.resolve FetchResult.notReady]

/-- Claim C3: a `NotReady` or error tick result never terminates polling.
First conjunct: resolving such a result in the polling state (mounted,
interval armed) leaves the instance mounted and armed and delivers
nothing.  Second conjunct: for every `n` the execution with `n + 1`
consecutive `NotReady` ticks is still polling, with `n + 1` fetch calls
made and nothing delivered — there is no maximum attempt count.  Third
conjunct: the interval is only ever cleared by explicit cancellation or
by a `Ready` result. -/
theorem C3_not_ready_keeps_polling :
    (∀ (s : PollState) (r : FetchResult),
      s.isMounted = true → s.intervalArmed = true →
      (r = FetchResult.notReady ∨ ∃ k, r = FetchResult.err k) →
      (pollStep s (PollEvent.resolve r)).isMounted = true ∧
      (pollStep s (PollEvent.resolve r)).intervalArmed = true ∧
      (pollStep s (PollEvent.resolve r)).delivered = s.delivered) ∧
    (∀ n : Nat, pollRun pollInit (notReadyTrace n) =
      { isMounted := true, intervalArmed := true, inFlight := 0
        delivered := [], fetchCalls := n + 1 }) ∧
    (∀ (s : PollState) (e : PollEvent),
      s.intervalArmed = true → (pollStep s e).intervalArmed = false →
      e = PollEvent.stop ∨ ∃ d, e = PollEvent.resolve (FetchResult.ready d)) := by
  refine ⟨?_, ?_, ?_⟩
  · intro s r hm ha hr
    rcases hr with hr | ⟨k, hr⟩ <;> subst hr <;>
      by_cases h0 : s.inFlight = 0 <;> simp [pollStep, h0, hm, ha]
  · intro n
    induction n with
    | zero => decide
    | succ n ih =>
      rw [notReadyTrace, pollRun_append, ih]
      rfl
  · intro s e ha hstep
    cases e with
    | stop => exact Or.inl rfl
    | tickFire =>
      exfalso
      by_cases hmm : s.isMounted <;> simp [pollStep, ha, hmm] at hstep
    | resolve r =>
      cases r with
      | ready d => exact Or.inr ⟨d, rfl⟩
      | notReady =>
        exfalso
        by_cases h0 : s.inFlight = 0 <;> simp [pollStep, h0, ha] at hstep
      | err k =>
        exfalso
        by_cases h0 : s.inFlight = 0 <;> simp [pollStep, h0, ha] at hstep

/-- Witness for claim C3 at concrete inputs: an error tick from the
initial polling state keeps the instance polling; four `NotReady` rounds
leave it polling with four fetch calls; and the cleanup event is a valid
way to disarm the interval. -/
theorem C3_not_ready_keeps_polling_witness :
    ((pollStep pollInit (PollEvent.resolve (FetchResult.err ErrKind.transport))).isMounted = true ∧
     (pollStep pollInit (PollEvent.resolve (FetchResult.err ErrKind.transport))).intervalArmed = true) ∧
    pollRun pollInit (notReadyTrace 3) =
      { isMounted := true, intervalArmed := true, inFlight := 0
        delivered := [], fetchCalls := 4 } ∧
    (PollEvent.stop = PollEvent.stop ∨
      ∃ d, PollEvent.stop = PollEvent.resolve (FetchResult.ready d)) := by
  refine ⟨?_, C3_not_ready_keeps_polling.2.1 3, ?_⟩
  · have h := C3_not_ready_keeps_polling.1 pollInit
      (FetchResult.err ErrKind.transport) rfl rfl (Or.inr ⟨ErrKind.transport, rfl⟩)
    exact ⟨h.1, h.2.1⟩
  · exact C3_not_ready_keeps_polling.2.2 pollInit PollEvent.stop rfl (by decide)

/-! ## Data model of the metric helpers (types/transcript.ts) -/

/-- Audio segment (`AudioSegment` in types/transcript.ts).  The source
stores `start_time` and `end_time` as strings and parses them with
`parseFloat` at every use site; the embedding stores the parsed rational
directly.  The `items` array and the optional `confidence` field are
never read by the embedded functions and are omitted. -/
structure AudioSegment where
  id : Int
  transcript : String
  start_time : ℚ
  end_time : ℚ
  speaker_label : String
  deriving DecidableEq, Repr

/-- One alternative of a transcript item. -/
structure TranscriptAlternative where
  confidence : String
  content : String
  deriving DecidableEq, Repr

/-- Transcript item (`TranscriptItem`).  `type` is the literal string
tag compared against "pronunciation" in the source. -/
structure TranscriptItem where
  start_time : Option String
  end_time : Option String
  alternatives : List TranscriptAlternative
  type : String
  speaker_label : Option String
  deriving DecidableEq, Repr

/-- Four-channel sentiment scores (`SentimentScores`). -/
structure SentimentScores where
  Positive : ℚ
  Negative : ℚ
  Neutral : ℚ
  Mixed : ℚ
  deriving DecidableEq, Repr

/-- Per-segment sentiment entry (`SegmentSentiment`); here `start_time`
is a number already in the source. -/
structure SegmentSentiment where
  text : String
  sentiment : String
  sentiment_score : SentimentScores
  start_time : ℚ
  end_time : ℚ
  deriving DecidableEq, Repr

/-- Output row of `getSpeakerStats`. -/
structure SpeakerStats where
  speakerId : String
  speakerLabel : String
  duration : ℚ
  percentage : ℚ
  wordCount : Nat
  deriving DecidableEq, Repr

/-- Output row of `getKeyMoments`. -/
structure KeyMoment where
  time : String
  label : String
  timestamp : ℚ
  deriving DecidableEq, Repr

/-! ## JavaScript arithmetic and string primitives -/

/-- JavaScript `Math.round`: round half toward positive infinity. -/
def jsRound (q : ℚ) : ℤ := ⌊q + 1 / 2⌋

/-- Truncation toward zero, as used by the JavaScript `%` operator. -/
def jsTrunc (q : ℚ) : ℤ := if 0 ≤ q then ⌊q⌋ else ⌈q⌉

/-- JavaScript remainder `a % b` on numbers: `a - b * trunc (a / b)`. -/
def jsMod (a b : ℚ) : ℚ := a - b * (jsTrunc (a / b) : ℚ)

/-- JavaScript `padStart(2, "0")`. -/
def padStart2 (s : String) : String :=
  ⟨List.replicate (2 - s.length) '0'⟩ ++ s

/-- `formatTimestamp` from lib/analysis-utils.ts: seconds to `H:MM:SS`
when at least one hour, otherwise `MM:SS` (this local declaration is the
one in scope inside the file, shadowing the `MM:SS`-only helper of
lib/s3-helpers.ts). -/
def formatTimestamp (seconds : ℚ) : String :=
  let hours : ℤ := ⌊seconds / 3600⌋
  let mins : ℤ := ⌊jsMod seconds 3600 / 60⌋
  let secs : ℤ := ⌊jsMod seconds 60⌋
  if 0 < hours then
    toString hours ++ ":" ++ padStart2 (toString mins) ++ ":" ++ padStart2 (toString secs)
  else
    padStart2 (toString mins) ++ ":" ++ padStart2 (toString secs)

/-- Search for the regular expression `spk_(\d+)`: find the first
occurrence of the literal `spk_` that is followed by at least one digit
and return the maximal digit run after it. -/
def findSpkDigits : List Char → Option (List Char)
  | [] => none
  | c :: cs =>
    match c, cs with
    | 's', 'p' :: 'k' :: '_' :: rest =>
      let ds := rest.takeWhile Char.isDigit
      if ds.isEmpty then findSpkDigits cs else some ds
    | _, _ => findSpkDigits cs

/-- Decimal value of a digit run, as `parseInt(-, 10)` computes it. -/
def digitsToNat (ds : List Char) : Nat :=
  ds.foldl (fun n c => 10 * n + (c.toNat - '0'.toNat)) 0

/-- `formatSpeakerLabel` from lib/s3-helpers.ts: `spk_N` becomes
`Speaker N+1`; anything without a match is returned unchanged. -/
def formatSpeakerLabel (speakerLabel : String) : String :=
  match findSpkDigits speakerLabel.data with
  | some ds => "Speaker " ++ toString (digitsToNat ds + 1)
  | none => speakerLabel

/-- JavaScript `String.prototype.split` at every character satisfying
`p` (adjacent separators yield empty pieces, exactly as splitting on a
single-character pattern does). -/
def splitOnPred (p : Char → Bool) : List Char → List (List Char)
  | [] => [[]]
  | c :: cs =>
    let r := splitOnPred p cs
    if p c then [] :: r
    else
      match r with
      | [] => [[c]]
      | y :: ys => (c :: y) :: ys

/-- Whitespace-delimited token count:
`t.split(/\s+/).filter(w => w.length > 0).length` (splitting on single
whitespace characters and discarding empty pieces counts the same
tokens as splitting on whitespace runs). -/
def splitWordCount (t : String) : Nat :=
  ((splitOnPred (fun c => c.isWhitespace) t.data).filter fun w => 0 < w.length).length

/-- `getWordCount` from lib/analysis-utils.ts (the falsy-string guard of
the source returns 0 for the empty string, which the split also
yields). -/
def getWordCount (transcript : String) : Nat :=
  if transcript.isEmpty then 0 else splitWordCount transcript

/-! ## MetricsEngine (lib/analysis-utils.ts) -/

/-- `calculateDuration`: end time of the last segment, `0` with no
segments. -/
def calculateDuration (segments : List AudioSegment) : ℚ :=
  match segments.getLast? with
  | none => 0
  | some s => s.end_time

/-- `calculateSpeakingRate`: words per minute, `0` for zero duration. -/
def calculateSpeakingRate (wordCount : ℚ) (durationSeconds : ℚ) : ℚ :=
  if durationSeconds = 0 then 0
  else (jsRound (wordCount / (durationSeconds / 60)) : ℚ)

/-- The filter condition of `getAverageConfidence`: pronunciation items
whose first alternative carries a truthy confidence string (among
JavaScript strings only the empty string is falsy). -/
def confCondition (item : TranscriptItem) : Bool :=
  item.type = "pronunciation" &&
    match item.alternatives with
    | [] => false
    | a :: _ => a.confidence ≠ ""

/-- `getAverageConfidence`, parameterized by the `parseFloat` reading of
a confidence string (`pf`), which the claims never need to evaluate. -/
def getAverageConfidence (pf : String → ℚ) (items : List TranscriptItem) : ℚ :=
  if items.isEmpty then 0
  else
    let itemsWithConfidence := items.filter confCondition
    if itemsWithConfidence.isEmpty then 0
    else
      let totalConfidence := (itemsWithConfidence.map fun item =>
        pf ((item.alternatives.headD ⟨"", ""⟩).confidence)).sum
      totalConfidence / (itemsWithConfidence.length : ℚ)

/-- Claim C8: all degenerate cases return zero rather than failing —
`calculateDuration [] = 0`, `calculateSpeakingRate w 0 = 0` for every
word count `w`, and `getAverageConfidence` returns 0 both on the empty
item list and whenever no pronunciation item carries a confidence
value. -/
theorem C8_degenerate_inputs_zero :
    calculateDuration [] = 0 ∧
    (∀ w : ℚ, calculateSpeakingRate w 0 = 0) ∧
    (∀ pf : String → ℚ, getAverageConfidence pf [] = 0) ∧
    (∀ (pf : String → ℚ) (items : List TranscriptItem),
      (∀ item ∈ items, confCondition item = false) →
      getAverageConfidence pf items = 0) := by
  refine ⟨rfl, fun w => rfl, fun pf => rfl, ?_⟩
  intro pf items hnone
  unfold getAverageConfidence
  have hfil : items.filter confCondition = [] := by
    rw [List.filter_eq_nil_iff]
    intro a ha
    simp [hnone a ha]
  by_cases hemp : items.isEmpty <;> simp [hemp, hfil]

/-- Witness for claim C8 at concrete inputs: a punctuation-only item
list yields average confidence 0, and a word count of 5 with zero
duration yields speaking rate 0. -/
theorem C8_degenerate_inputs_zero_witness :
    calculateSpeakingRate 5 0 = 0 ∧
    getAverageConfidence (fun _ => 0)
      [{ start_time := none, end_time := none, alternatives := [],
         type := "punctuation", speaker_label := none }] = 0 := by
  refine ⟨C8_degenerate_inputs_zero.2.1 5, ?_⟩
  exact C8_degenerate_inputs_zero.2.2.2 (fun _ => 0) _ (by decide)

/-! ## Conversation balance (lib/analysis-utils.ts, getConversationBalance) -/

/-- The dominated wording of `getConversationBalance`:
`${label} dominated (${Math.round(p)}%)`. -/
def dominatedWording (label : String) (n : ℤ) : String :=
  label ++ " dominated (" ++ toString n ++ "%)"

/-- The led wording of `getConversationBalance`:
`${label} led conversation (${Math.round(p)}%)`. -/
def ledWording (label : String) (n : ℤ) : String :=
  label ++ " led conversation (" ++ toString n ++ "%)"

/-- `getConversationBalance`: categorical insight from the speaker
statistics; the top speaker is the first entry of the list. -/
def getConversationBalance (speakerStats : List SpeakerStats) : String :=
  match speakerStats with
  | [] => "No data"
  | [_] => "Single speaker"
  | topSpeaker :: _ :: _ =>
    if 70 < topSpeaker.percentage then
      dominatedWording topSpeaker.speakerLabel (jsRound topSpeaker.percentage)
    else if 60 < topSpeaker.percentage then
      ledWording topSpeaker.speakerLabel (jsRound topSpeaker.percentage)
    else
      "Balanced conversation"

theorem string_data_append (a b : String) : (a ++ b).data = a.data ++ b.data := by
  cases a; cases b; rfl

theorem string_length_append_eq (a b : String) :
    (a ++ b).length = a.length + b.length :=
  String.length_append a b

/-- Number of opening parentheses of a string, the discriminator that
separates the percentage wordings from the fixed category strings. -/
def parenCount (s : String) : Nat := s.data.count '('

theorem parenCount_append (a b : String) :
    parenCount (a ++ b) = parenCount a + parenCount b := by
  simp [parenCount, string_data_append, List.count_append]

theorem parenCount_dominated (label : String) (n : ℤ) :
    1 ≤ parenCount (dominatedWording label n) := by
  unfold dominatedWording
  rw [parenCount_append, parenCount_append, parenCount_append]
  have h : parenCount " dominated (" = 1 := by decide
  omega

theorem parenCount_led (label : String) (n : ℤ) :
    1 ≤ parenCount (ledWording label n) := by
  unfold ledWording
  rw [parenCount_append, parenCount_append, parenCount_append]
  have h : parenCount " led conversation (" = 1 := by decide
  omega

theorem dominated_ne_fixed (label : String) (n : ℤ) (s : String)
    (hs : parenCount s = 0) : dominatedWording label n ≠ s := by
  intro h
  have h2 := congrArg parenCount h
  have h3 := parenCount_dominated label n
  omega

theorem led_ne_fixed (label : String) (n : ℤ) (s : String)
    (hs : parenCount s = 0) : ledWording label n ≠ s := by
  intro h
  have h2 := congrArg parenCount h
  have h3 := parenCount_led label n
  omega

theorem dominated_ne_led (l l' : String) (n n' : ℤ) (hl : l = l') (hn : n = n') :
    dominatedWording l n ≠ ledWording l' n' := by
  subst hl; subst hn
  intro h
  have h2 := congrArg String.length h
  unfold dominatedWording ledWording at h2
  rw [string_length_append_eq, string_length_append_eq, string_length_append_eq,
    string_length_append_eq, string_length_append_eq, string_length_append_eq] at h2
  have ha : (" dominated (" : String).length = 12 := by decide
  have hb : (" led conversation (" : String).length = 19 := by decide
  omega

/-- Claim C9: for a non-empty statistics list, `getConversationBalance`
returns "Single speaker" with exactly one entry; with two or more
entries it returns the dominated wording exactly when the top entry has
percentage strictly above 70, the led wording exactly when the
percentage is strictly above 60 and at most 70, and
"Balanced conversation" whenever it is at most 60. -/
theorem C9_conversation_balance (stats : List SpeakerStats) :
    (stats.length = 1 → getConversationBalance stats = "Single speaker") ∧
    (∀ (top second : SpeakerStats) (rest : List SpeakerStats),
      stats = top :: second :: rest →
      ((getConversationBalance stats
          = dominatedWording top.speakerLabel (jsRound top.percentage)
        ↔ 70 < top.percentage) ∧
       (getConversationBalance stats
          = ledWording top.speakerLabel (jsRound top.percentage)
        ↔ (60 < top.percentage ∧ top.percentage ≤ 70)) ∧
       (top.percentage ≤ 60 → getConversationBalance stats = "Balanced conversation"))) := by
  constructor
  · intro hlen
    match stats, hlen with
    | [x], _ => rfl
  · intro top second rest hstats
    subst hstats
    by_cases h70 : 70 < top.percentage
    · have hval : getConversationBalance (top :: second :: rest)
          = dominatedWording top.speakerLabel (jsRound top.percentage) := by
        simp [getConversationBalance, h70]
      refine ⟨⟨fun _ => h70, fun _ => hval⟩, ⟨fun h => ?_, fun h => absurd h70 (by linarith [h.2])⟩,
        fun hle => absurd h70 (by linarith)⟩
      exact absurd (hval.symm.trans h) (dominated_ne_led _ _ _ _ rfl rfl)
    · by_cases h60 : 60 < top.percentage
      · have hval : getConversationBalance (top :: second :: rest)
            = ledWording top.speakerLabel (jsRound top.percentage) := by
          simp [getConversationBalance, h70, h60]
        refine ⟨⟨fun h => ?_, fun h => absurd h h70⟩,
          ⟨fun _ => ⟨h60, by linarith⟩, fun _ => hval⟩,
          fun hle => absurd h60 (by linarith)⟩
        exact absurd (h.symm.trans hval) (dominated_ne_led _ _ _ _ rfl rfl)
      · have hval : getConversationBalance (top :: second :: rest)
            = "Balanced conversation" := by
          simp [getConversationBalance, h70, h60]
        refine ⟨⟨fun h => ?_, fun h => absurd h h70⟩,
          ⟨fun h => ?_, fun h => absurd h.1 h60⟩, fun _ => hval⟩
        · exact absurd (h.symm.trans hval)
            (dominated_ne_fixed _ _ _ (by decide))
        · exact absurd (h.symm.trans hval)
            (led_ne_fixed _ _ _ (by decide))

/-- Witness for claim C9 at concrete statistics: with a top share of 80
percent of two speakers the dominated wording is returned, and with a
top share of 50 percent the balanced wording is returned. -/
theorem C9_conversation_balance_witness :
    getConversationBalance
      [{ speakerId := "spk_0", speakerLabel := "Speaker 1", duration := 8,
         percentage := 80, wordCount := 10 },
       { speakerId := "spk_1", speakerLabel := "Speaker 2", duration := 2,
         percentage := 20, wordCount := 3 }]
      = dominatedWording "Speaker 1" (jsRound 80) ∧
    getConversationBalance
      [{ speakerId := "spk_0", speakerLabel := "Speaker 1", duration := 5,
         percentage := 50, wordCount := 10 },
       { speakerId := "spk_1", speakerLabel := "Speaker 2", duration := 5,
         percentage := 50, wordCount := 3 }]
      = "Balanced conversation" := by
  constructor
  · exact ((C9_conversation_balance _).2 _ _ [] rfl).1.mpr (by norm_num)
  · exact ((C9_conversation_balance _).2 _ _ [] rfl).2.2 (by norm_num)

/-- Claim C10: the empty statistics list yields the distinct fifth
category "No data"; every input yields exactly one of the five
categorical strings, and "No data" differs from each of the other
four. -/
theorem C10_no_data_category :
    getConversationBalance [] = "No data" ∧
    (∀ stats : List SpeakerStats,
      getConversationBalance stats = "No data" ∨
      getConversationBalance stats = "Single speaker" ∨
      getConversationBalance stats = "Balanced conversation" ∨
      (∃ l n, getConversationBalance stats = dominatedWording l n) ∨
      (∃ l n, getConversationBalance stats = ledWording l n)) ∧
    (∀ (l : String) (n : ℤ), dominatedWording l n ≠ "No data") ∧
    (∀ (l : String) (n : ℤ), ledWording l n ≠ "No data") ∧
    ("No data" ≠ "Single speaker" ∧ "No data" ≠ "Balanced conversation") := by
  refine ⟨rfl, ?_, fun l n => dominated_ne_fixed l n _ (by decide),
    fun l n => led_ne_fixed l n _ (by decide), by decide, by decide⟩
  intro stats
  match stats with
  | [] => exact Or.inl rfl
  | [x] => exact Or.inr (Or.inl rfl)
  | top :: second :: rest =>
    by_cases h70 : 70 < top.percentage
    · exact Or.inr (Or.inr (Or.inr (Or.inl
        ⟨top.speakerLabel, jsRound top.percentage, by simp [getConversationBalance, h70]⟩)))
    · by_cases h60 : 60 < top.percentage
      · exact Or.inr (Or.inr (Or.inr (Or.inr
          ⟨top.speakerLabel, jsRound top.percentage,
            by simp [getConversationBalance, h70, h60]⟩)))
      · exact Or.inr (Or.inr (Or.inl (by simp [getConversationBalance, h70, h60])))

/-- Witness for claim C10 at concrete inputs. -/
theorem C10_no_data_category_witness :
    getConversationBalance [] = "No data" ∧
    dominatedWording "Speaker 1" 80 ≠ "No data" := by
  exact ⟨C10_no_data_category.1, C10_no_data_category.2.2.1 "Speaker 1" 80⟩

/-! ## Speaker statistics (lib/analysis-utils.ts, getSpeakerStats) -/

/-- One update of the `speakerMap`: read the current accumulator for the
key (defaulting to zero) and store the bumped value back, keeping the
insertion order of a JavaScript `Map`. -/
def bumpSpeaker : List (String × ℚ × Nat) → String → ℚ → Nat → List (String × ℚ × Nat)
  | [], k, d, w => [(k, d, w)]
  | e :: rest, k, d, w =>
    if e.1 = k then (e.1, e.2.1 + d, e.2.2 + w) :: rest
    else e :: bumpSpeaker rest k d w

/-- The body of the `segments.forEach` loop of `getSpeakerStats`. -/
def segStep (acc : List (String × ℚ × Nat)) (seg : AudioSegment) : List (String × ℚ × Nat) :=
  bumpSpeaker acc seg.speaker_label (seg.end_time - seg.start_time)
    (splitWordCount seg.transcript)

instance : IsTotal SpeakerStats fun a b => b.duration ≤ a.duration :=
  ⟨fun a b => le_total b.duration a.duration⟩

instance : IsTrans SpeakerStats fun a b => b.duration ≤ a.duration :=
  ⟨fun _ _ _ hab hbc => le_trans hbc hab⟩

/-- `getSpeakerStats`: per-speaker talk time, word count and share of
the given total duration, sorted by descending talk time (the source
uses the stable `Array.prototype.sort` with comparator
`(a, b) => b.duration - a.duration`). -/
def getSpeakerStats (segments : List AudioSegment) (totalDuration : ℚ) : List SpeakerStats :=
  if segments.isEmpty then []
  else
    let speakerMap := segments.foldl segStep []
    let stats := speakerMap.map fun e =>
      { speakerId := e.1
        speakerLabel := formatSpeakerLabel e.1
        duration := e.2.1
        percentage := if 0 < totalDuration then e.2.1 / totalDuration * 100 else 0
        wordCount := e.2.2 }
    List.insertionSort (fun a b => b.duration ≤ a.duration) stats

/-- Talk time of speaker `k` summed over the matching segments. -/
def durFilterSum (segs : List AudioSegment) (k : String) : ℚ :=
  ((segs.filter fun s => s.speaker_label = k).map fun s => s.end_time - s.start_time).sum

/-- Word count of speaker `k` summed over the matching segments. -/
def wcFilterSum (segs : List AudioSegment) (k : String) : Nat :=
  ((segs.filter fun s => s.speaker_label = k).map fun s => splitWordCount s.transcript).sum

/-- Accumulator lookup with the zero default the source uses. -/
def entryLookup : List (String × ℚ × Nat) → String → ℚ × Nat
  | [], _ => (0, 0)
  | e :: rest, k => if e.1 = k then e.2 else entryLookup rest k

theorem bumpSpeaker_lookup (m : List (String × ℚ × Nat)) (k : String) (d : ℚ) (w : Nat)
    (k' : String) :
    entryLookup (bumpSpeaker m k d w) k' =
      if k' = k then ((entryLookup m k).1 + d, (entryLookup m k).2 + w)
      else entryLookup m k' := by
  induction m with
  | nil =>
    by_cases h : k' = k
    · subst h; simp [bumpSpeaker, entryLookup]
    · have h2 : ¬ k = k' := fun hh => h hh.symm
      simp [bumpSpeaker, entryLookup, h, h2]
  | cons e rest ih =>
    by_cases he : e.1 = k
    · by_cases h' : k' = k
      · subst h'; simp [bumpSpeaker, entryLookup, he]
      · have h2 : ¬ k = k' := fun hh => h' hh.symm
        have h3 : ¬ e.1 = k' := by rw [he]; exact h2
        simp [bumpSpeaker, entryLookup, he, h', h2, h3]
    · by_cases h'' : e.1 = k'
      · have h' : ¬ k' = k := fun hh => he (h''.trans hh)
        simp [bumpSpeaker, entryLookup, he, h'', h']
      · simp [bumpSpeaker, entryLookup, he, h'', ih]

theorem foldl_segStep_lookup (segs : List AudioSegment) :
    ∀ (m : List (String × ℚ × Nat)) (k : String),
      entryLookup (segs.foldl segStep m) k =
        ((entryLookup m k).1 + durFilterSum segs k,
         (entryLookup m k).2 + wcFilterSum segs k) := by
  induction segs with
  | nil => intro m k; simp [durFilterSum, wcFilterSum]
  | cons seg segs ih =>
    intro m k
    rw [List.foldl_cons, ih]
    by_cases hk : seg.speaker_label = k
    · have h1 : durFilterSum (seg :: segs) k =
          (seg.end_time - seg.start_time) + durFilterSum segs k := by
        simp [durFilterSum, List.filter_cons, hk]
      have h2 : wcFilterSum (seg :: segs) k =
          splitWordCount seg.transcript + wcFilterSum segs k := by
        simp [wcFilterSum, List.filter_cons, hk]
      rw [h1, h2, segStep, bumpSpeaker_lookup]
      have hk' : k = seg.speaker_label := hk.symm
      simp [hk']
      constructor
      · ring
      · omega
    · have h1 : durFilterSum (seg :: segs) k = durFilterSum segs k := by
        simp [durFilterSum, List.filter_cons, hk]
      have h2 : wcFilterSum (seg :: segs) k = wcFilterSum segs k := by
        simp [wcFilterSum, List.filter_cons, hk]
      rw [h1, h2, segStep, bumpSpeaker_lookup]
      have hk' : ¬ k = seg.speaker_label := fun hh => hk hh.symm
      simp [hk']

theorem bumpSpeaker_keys (m : List (String × ℚ × Nat)) (k : String) (d : ℚ) (w : Nat) :
    (bumpSpeaker m k d w).map Prod.fst =
      if k ∈ m.map Prod.fst then m.map Prod.fst else m.map Prod.fst ++ [k] := by
  induction m with
  | nil => simp [bumpSpeaker]
  | cons e rest ih =>
    by_cases he : e.1 = k
    · simp [bumpSpeaker, he]
    · have hne : ¬ k = e.1 := fun hh => he hh.symm
      by_cases hk : k ∈ rest.map Prod.fst
      · simp [bumpSpeaker, he, ih, hk, hne]
      · simp [bumpSpeaker, he, ih, hk, hne]

theorem bumpSpeaker_keys_nodup (m : List (String × ℚ × Nat)) (k : String) (d : ℚ) (w : Nat)
    (h : (m.map Prod.fst).Nodup) : ((bumpSpeaker m k d w).map Prod.fst).Nodup := by
  rw [bumpSpeaker_keys]
  by_cases hk : k ∈ m.map Prod.fst
  · simpa [hk] using h
  · simp only [hk, if_false]
    simp [List.nodup_append, h, hk]

theorem foldl_segStep_keys_nodup (segs : List AudioSegment) :
    ∀ m : List (String × ℚ × Nat), (m.map Prod.fst).Nodup →
      ((segs.foldl segStep m).map Prod.fst).Nodup := by
  induction segs with
  | nil => intro m h; exact h
  | cons seg segs ih =>
    intro m h
    exact ih _ (bumpSpeaker_keys_nodup m _ _ _ h)

theorem entryLookup_of_mem (m : List (String × ℚ × Nat))
    (hnd : (m.map Prod.fst).Nodup) (e : String × ℚ × Nat) (he : e ∈ m) :
    entryLookup m e.1 = e.2 := by
  induction m with
  | nil => cases he
  | cons a rest ih =>
    rcases List.mem_cons.mp he with he1 | he2
    · subst he1; simp [entryLookup]
    · have ha : a.1 ∉ rest.map Prod.fst := (List.nodup_cons.mp hnd).1
      have hne : a.1 ≠ e.1 := by
        intro hh
        exact ha (hh ▸ List.mem_map.mpr ⟨e, he2, rfl⟩)
      have hne' : ¬ a.1 = e.1 := hne
      simp only [entryLookup, hne', if_false]
      exact ih (List.nodup_cons.mp hnd).2 he2

theorem bumpSpeaker_keys_mono (m : List (String × ℚ × Nat)) (k : String) (d : ℚ) (w : Nat)
    (k' : String) (h : k' ∈ m.map Prod.fst) :
    k' ∈ (bumpSpeaker m k d w).map Prod.fst := by
  rw [bumpSpeaker_keys]
  by_cases hk : k ∈ m.map Prod.fst <;> simp [hk, h]

theorem bumpSpeaker_keys_self (m : List (String × ℚ × Nat)) (k : String) (d : ℚ) (w : Nat) :
    k ∈ (bumpSpeaker m k d w).map Prod.fst := by
  rw [bumpSpeaker_keys]
  by_cases hk : k ∈ m.map Prod.fst <;> simp [hk]

theorem foldl_segStep_keys_mono (segs : List AudioSegment) :
    ∀ (m : List (String × ℚ × Nat)) (k' : String), k' ∈ m.map Prod.fst →
      k' ∈ ((segs.foldl segStep m).map Prod.fst) := by
  induction segs with
  | nil => intro m k' h; exact h
  | cons seg segs ih =>
    intro m k' h
    exact ih _ _ (bumpSpeaker_keys_mono m _ _ _ _ h)

theorem mem_keys_foldl_segStep (segs : List AudioSegment) :
    ∀ (m : List (String × ℚ × Nat)) (seg : AudioSegment), seg ∈ segs →
      seg.speaker_label ∈ ((segs.foldl segStep m).map Prod.fst) := by
  induction segs with
  | nil => intro m seg h; cases h
  | cons a segs ih =>
    intro m seg h
    rcases List.mem_cons.mp h with h1 | h2
    · subst h1
      exact foldl_segStep_keys_mono segs _ _ (bumpSpeaker_keys_self m _ _ _)
    · exact ih _ _ h2

theorem bumpSpeaker_dur_sum (m : List (String × ℚ × Nat)) (k : String) (d : ℚ) (w : Nat) :
    ((bumpSpeaker m k d w).map fun e => e.2.1).sum = ((m.map fun e => e.2.1).sum) + d := by
  induction m with
  | nil => simp [bumpSpeaker]
  | cons e rest ih =>
    by_cases he : e.1 = k
    · simp [bumpSpeaker, he]; ring
    · simp [bumpSpeaker, he, ih]; ring

theorem foldl_segStep_dur_sum (segs : List AudioSegment) :
    ∀ m : List (String × ℚ × Nat),
      ((segs.foldl segStep m).map fun e => e.2.1).sum =
        ((m.map fun e => e.2.1).sum) + ((segs.map fun s => s.end_time - s.start_time).sum) := by
  induction segs with
  | nil => intro m; simp
  | cons seg segs ih =>
    intro m
    rw [List.foldl_cons, ih, segStep, bumpSpeaker_dur_sum]
    simp
    ring

theorem sum_map_entry_div_mul (m : List (String × ℚ × Nat)) (d : ℚ) :
    ((m.map fun e => e.2.1 / d * 100).sum) = ((m.map fun e => e.2.1).sum) / d * 100 := by
  induction m with
  | nil => simp
  | cons x l ih => simp [ih]; ring

/-- Concrete one-segment input used to separate the claimed percentage
formula from the source guard. -/
def cexSegment : AudioSegment :=
  { id := 0, transcript := "hi", start_time := 0, end_time := 1, speaker_label := "spk_0" }

/-- Claim C5, counterexample: the claimed rule sets the percentage to
`talkTime / duration * 100` whenever the duration argument is nonzero,
but the source computes `totalDuration > 0 ? ... : 0`, so for a negative
duration argument the code returns 0 while the claimed formula gives a
nonzero value. -/
theorem C5_negative_duration_percentage :
    (getSpeakerStats [cexSegment] (-1)).map SpeakerStats.percentage = [0] ∧
    ¬ (∀ st ∈ getSpeakerStats [cexSegment] (-1),
        st.percentage = st.duration / (-1) * 100) := by
  have hwc : splitWordCount "hi" = 1 := by decide
  have hlist : getSpeakerStats [cexSegment] (-1) =
      [{ speakerId := "spk_0", speakerLabel := formatSpeakerLabel "spk_0", duration := 1,
         percentage := 0, wordCount := 1 }] := by
    simp [getSpeakerStats, segStep, cexSegment, bumpSpeaker, hwc]
  constructor
  · rw [hlist]; rfl
  · intro h
    have h2 := h _ (by rw [hlist]; exact List.mem_singleton.mpr rfl)
    norm_num at h2

/-- Claim C5 (amended): `getSpeakerStats` groups segments by speaker id,
summing talk time and whitespace word count per speaker; each percentage
is `talkTime / duration * 100` when the duration argument is positive
and 0 otherwise (in particular 0 when the duration is 0); every speaker
of the input occurs in the output; the output is ordered by descending
talk time; when the duration argument equals the total of all segment
durations and is positive the percentages sum to exactly 100; and the
empty segment list yields the empty output. -/
theorem C5_speaker_stats_grouping (segs : List AudioSegment) (d : ℚ) :
    getSpeakerStats [] d = [] ∧
    (∀ st ∈ getSpeakerStats segs d,
      st.duration = durFilterSum segs st.speakerId ∧
      st.wordCount = wcFilterSum segs st.speakerId ∧
      st.percentage = if 0 < d then st.duration / d * 100 else 0) ∧
    (∀ seg ∈ segs, ∃ st ∈ getSpeakerStats segs d, st.speakerId = seg.speaker_label) ∧
    List.Sorted (fun a b => b.duration ≤ a.duration) (getSpeakerStats segs d) ∧
    (d = ((segs.map fun s => s.end_time - s.start_time).sum) → 0 < d →
      ((getSpeakerStats segs d).map SpeakerStats.percentage).sum = 100) := by
  by_cases hemp : segs = []
  · subst hemp
    refine ⟨rfl, ?_, ?_, ?_, ?_⟩
    · intro st hst; cases hst
    · intro seg hseg; cases hseg
    · exact List.sorted_nil
    · intro h1 h2
      rw [h1] at h2
      simp at h2
  · have hne : segs.isEmpty = false := by
      cases segs with
      | nil => exact absurd rfl hemp
      | cons a l => rfl
    have hnd : ((segs.foldl segStep []).map Prod.fst).Nodup :=
      foldl_segStep_keys_nodup segs [] (by simp)
    have hval : getSpeakerStats segs d =
        List.insertionSort (fun a b => b.duration ≤ a.duration)
          ((segs.foldl segStep []).map fun e =>
            { speakerId := e.1
              speakerLabel := formatSpeakerLabel e.1
              duration := e.2.1
              percentage := if 0 < d then e.2.1 / d * 100 else 0
              wordCount := e.2.2 }) := by
      simp [getSpeakerStats, hne]
    have hmemiff : ∀ st : SpeakerStats, st ∈ getSpeakerStats segs d ↔
        st ∈ ((segs.foldl segStep []).map fun e =>
          { speakerId := e.1
            speakerLabel := formatSpeakerLabel e.1
            duration := e.2.1
            percentage := if 0 < d then e.2.1 / d * 100 else 0
            wordCount := e.2.2 }) := by
      intro st
      rw [hval]
      exact (List.perm_insertionSort _ _).mem_iff
    have hentry : ∀ e ∈ segs.foldl segStep [],
        e.2 = (durFilterSum segs e.1, wcFilterSum segs e.1) := by
      intro e he
      have h1 := entryLookup_of_mem _ hnd e he
      have h2 := foldl_segStep_lookup segs [] e.1
      rw [h1] at h2
      simpa [entryLookup] using h2
    refine ⟨rfl, ?_, ?_, ?_, ?_⟩
    · intro st hst
      obtain ⟨e, he, hfe⟩ := List.mem_map.mp ((hmemiff st).mp hst)
      have h2 := hentry e he
      subst hfe
      refine ⟨?_, ?_, rfl⟩
      · show e.2.1 = durFilterSum segs e.1
        rw [h2]
      · show e.2.2 = wcFilterSum segs e.1
        rw [h2]
    · intro seg hseg
      have hk := mem_keys_foldl_segStep segs [] seg hseg
      obtain ⟨e, he, hke⟩ := List.mem_map.mp hk
      refine ⟨_, (hmemiff _).mpr (List.mem_map.mpr ⟨e, he, rfl⟩), hke⟩
    · rw [hval]
      exact List.sorted_insertionSort _ _
    · intro h1 h2
      have hperm : ((getSpeakerStats segs d).map SpeakerStats.percentage).sum =
          (((segs.foldl segStep []).map fun e =>
            ({ speakerId := e.1
               speakerLabel := formatSpeakerLabel e.1
               duration := e.2.1
               percentage := if 0 < d then e.2.1 / d * 100 else 0
               wordCount := e.2.2 } : SpeakerStats)).map SpeakerStats.percentage).sum := by
        rw [hval]
        exact List.Perm.sum_eq ((List.perm_insertionSort _ _).map _)
      rw [hperm, List.map_map]
      have hcomp : (SpeakerStats.percentage ∘ fun e : String × ℚ × Nat =>
          ({ speakerId := e.1
             speakerLabel := formatSpeakerLabel e.1
             duration := e.2.1
             percentage := if 0 < d then e.2.1 / d * 100 else 0
             wordCount := e.2.2 } : SpeakerStats)) =
          fun e : String × ℚ × Nat => e.2.1 / d * 100 := by
        funext e
        simp [Function.comp, h2]
      rw [hcomp, sum_map_entry_div_mul, foldl_segStep_dur_sum segs []]
      simp only [List.map_nil, List.sum_nil, zero_add]
      rw [← h1, div_self (ne_of_gt h2), one_mul]

/-- Witness for the amended claim C5 at the two-segment example of the
specification: two speakers, ten seconds each of a twenty-second total,
so the percentages sum to exactly 100, and each entry carries its
speaker's summed talk time. -/
theorem C5_speaker_stats_grouping_witness :
    ((getSpeakerStats
      [{ id := 0, transcript := "hello there", start_time := 0, end_time := 10,
         speaker_label := "spk_0" },
       { id := 1, transcript := "hi back", start_time := 10, end_time := 20,
         speaker_label := "spk_1" }] 20).map SpeakerStats.percentage).sum = 100 ∧
    (0 : ℚ) < 20 := by
  refine ⟨?_, by norm_num⟩
  exact (C5_speaker_stats_grouping
    [{ id := 0, transcript := "hello there", start_time := 0, end_time := 10,
       speaker_label := "spk_0" },
     { id := 1, transcript := "hi back", start_time := 10, end_time := 20,
       speaker_label := "spk_1" }] 20).2.2.2.2 (by norm_num) (by norm_num)

/-! ## Key moments (lib/analysis-utils.ts, getKeyMoments) -/

/-- The speaker-change loop of `getKeyMoments`: one moment per position
whose speaker label differs from the previous segment, timestamped at
the new segment's start. -/
def speakerChangeMoments : List AudioSegment → List KeyMoment
  | a :: b :: rest =>
    (if b.speaker_label ≠ a.speaker_label then
      [{ time := formatTimestamp b.start_time
         label := "Speaker Change to " ++ formatSpeakerLabel b.speaker_label
         timestamp := b.start_time }]
     else []) ++ speakerChangeMoments (b :: rest)
  | _ => []

/-- `getKeyMoments`: start moment, speaker changes, end moment; above 8
entries the interior is down-sampled by stride `floor(n / 6)` to at most
6 entries between the kept start and end. -/
def getKeyMoments (audioSegments : List AudioSegment) : List KeyMoment :=
  if audioSegments.isEmpty then []
  else
    let duration := calculateDuration audioSegments
    let startMoment : KeyMoment :=
      { time := formatTimestamp 0, label := "Conversation Start", timestamp := 0 }
    let endMoment : KeyMoment :=
      { time := formatTimestamp duration, label := "Conversation End", timestamp := duration }
    let moments := startMoment :: (speakerChangeMoments audioSegments ++ [endMoment])
    if 8 < moments.length then
      let changes := (moments.drop 1).dropLast
      let strideW := changes.length / 6
      let selectedChanges := ((changes.enum.filter fun p => p.1 % strideW = 0).map Prod.snd).take 6
      startMoment :: (selectedChanges ++ [endMoment])
    else moments

theorem filter_enum_map_snd_sublist {α : Type} (l : List α) (p : Nat × α → Bool) :
    List.Sublist ((l.enum.filter p).map Prod.snd) l := by
  have h1 : List.Sublist (l.enum.filter p) l.enum := List.filter_sublist _
  have h2 := h1.map Prod.snd
  rwa [List.enum_map_snd] at h2

/-- Claim C6, counterexample: for the empty segment list `getKeyMoments`
returns the empty list, so it has no first start moment at all; the
claim quantified over every segment list fails at `[]`. -/
theorem C6_empty_list_no_start :
    getKeyMoments [] = [] ∧
    ¬ ∃ (first : KeyMoment) (rest : List KeyMoment),
        getKeyMoments ([] : List AudioSegment) = first :: rest := by
  refine ⟨rfl, ?_⟩
  rintro ⟨f, r, h⟩
  simp [getKeyMoments] at h

/-- Claim C6 (amended): `getKeyMoments` never returns more than 8
moments, and for every non-empty segment list the result starts with
the start moment (timestamp 0) and ends with the end moment (timestamp
equal to the total duration); the interior is a selection of the
speaker-change moments of length at most 6, and whenever the synthesized
list exceeds 8 entries it is exactly the stride-`floor(n / 6)`
down-sampling truncated to 6. -/
theorem C6_key_moments_bounds (segs : List AudioSegment) :
    (getKeyMoments segs).length ≤ 8 ∧
    (segs ≠ [] →
      ∃ mid : List KeyMoment,
        getKeyMoments segs =
          { time := formatTimestamp 0, label := "Conversation Start", timestamp := 0 } ::
            (mid ++ [{ time := formatTimestamp (calculateDuration segs)
                       label := "Conversation End"
                       timestamp := calculateDuration segs }]) ∧
        List.Sublist mid (speakerChangeMoments segs) ∧
        mid.length ≤ 6 ∧
        (8 < (speakerChangeMoments segs).length + 2 →
          mid = (((speakerChangeMoments segs).enum.filter
            fun p => p.1 % ((speakerChangeMoments segs).length / 6) = 0).map
              Prod.snd).take 6)) := by
  by_cases hemp : segs = []
  · subst hemp
    exact ⟨by simp [getKeyMoments], fun h => absurd rfl h⟩
  · have hne : segs.isEmpty = false := by
      cases segs with
      | nil => exact absurd rfl hemp
      | cons a l => rfl
    have hdropl : ((({ time := formatTimestamp 0, label := "Conversation Start", timestamp := 0 } : KeyMoment) ::
          (speakerChangeMoments segs ++
            [{ time := formatTimestamp (calculateDuration segs)
               label := "Conversation End"
               timestamp := calculateDuration segs }])).drop 1).dropLast
        = speakerChangeMoments segs := by
      simp
    by_cases h8 : 8 < (speakerChangeMoments segs).length + 2
    · have hcond : 8 < (({ time := formatTimestamp 0, label := "Conversation Start", timestamp := 0 } : KeyMoment) ::
          (speakerChangeMoments segs ++
            [{ time := formatTimestamp (calculateDuration segs)
               label := "Conversation End"
               timestamp := calculateDuration segs }])).length := by
        simp only [List.length_cons, List.length_append, List.length_singleton, List.length_nil]
        omega
      have hval : getKeyMoments segs =
          { time := formatTimestamp 0, label := "Conversation Start", timestamp := 0 } ::
            (((((speakerChangeMoments segs).enum.filter
                 fun p => p.1 % ((speakerChangeMoments segs).length / 6) = 0).map
                   Prod.snd).take 6) ++
              [{ time := formatTimestamp (calculateDuration segs)
                 label := "Conversation End"
                 timestamp := calculateDuration segs }]) := by
        simp only [getKeyMoments, hne, Bool.false_eq_true, if_false]
        rw [if_pos hcond, hdropl]
      constructor
      · rw [hval]
        simp only [List.length_cons, List.length_append, List.length_singleton, List.length_nil]
        have := List.length_take_le 6 (((speakerChangeMoments segs).enum.filter
          fun p => p.1 % ((speakerChangeMoments segs).length / 6) = 0).map Prod.snd)
        omega
      · intro _
        refine ⟨_, hval, ?_, ?_, fun _ => rfl⟩
        · exact (List.take_sublist _ _).trans
            (filter_enum_map_snd_sublist (speakerChangeMoments segs) _)
        · exact List.length_take_le _ _
    · have hcond : ¬ 8 < (({ time := formatTimestamp 0, label := "Conversation Start", timestamp := 0 } : KeyMoment) ::
          (speakerChangeMoments segs ++
            [{ time := formatTimestamp (calculateDuration segs)
               label := "Conversation End"
               timestamp := calculateDuration segs }])).length := by
        simp only [List.length_cons, List.length_append, List.length_singleton, List.length_nil]
        omega
      have hval : getKeyMoments segs =
          { time := formatTimestamp 0, label := "Conversation Start", timestamp := 0 } ::
            (speakerChangeMoments segs ++
              [{ time := formatTimestamp (calculateDuration segs)
                 label := "Conversation End"
                 timestamp := calculateDuration segs }]) := by
        simp only [getKeyMoments, hne, Bool.false_eq_true, if_false]
        rw [if_neg hcond]
      constructor
      · rw [hval]
        simp only [List.length_cons, List.length_append, List.length_singleton, List.length_nil]
        omega
      · intro _
        exact ⟨speakerChangeMoments segs, hval, List.Sublist.refl _, by omega,
          fun hh => absurd hh h8⟩

/-- Two-segment example from the specification used as the witness
input for the key-moment bounds. -/
def witnessSegments : List AudioSegment :=
  [{ id := 0, transcript := "hello there", start_time := 0, end_time := 10,
     speaker_label := "spk_0" },
   { id := 1, transcript := "hi back", start_time := 10, end_time := 20,
     speaker_label := "spk_1" }]

/-- Witness for the amended claim C6 at the two-segment example: at most
8 moments, and the result runs from the start moment to the end moment
with an interior selection of the speaker changes. -/
theorem C6_key_moments_bounds_witness :
    (getKeyMoments witnessSegments).length ≤ 8 ∧
    ∃ mid : List KeyMoment,
      getKeyMoments witnessSegments =
        { time := formatTimestamp 0, label := "Conversation Start", timestamp := 0 } ::
          (mid ++ [{ time := formatTimestamp (calculateDuration witnessSegments)
                     label := "Conversation End"
                     timestamp := calculateDuration witnessSegments }]) ∧
      List.Sublist mid (speakerChangeMoments witnessSegments) ∧
      mid.length ≤ 6 := by
  have h := C6_key_moments_bounds witnessSegments
  refine ⟨h.1, ?_⟩
  obtain ⟨mid, h1, h2, h3, _⟩ := h.2 (by simp [witnessSegments])
  exact ⟨mid, h1, h2, h3⟩

/-! ## Sentiment helpers (lib/analysis-utils.ts) -/

/-- Output row of `getKeyEmotionalMoments`. -/
structure EmotionalMoment where
  time : String
  timestamp : ℚ
  sentiment : String
  text : String
  score : ℚ
  deriving DecidableEq, Repr

instance : IsTotal EmotionalMoment fun a b => a.timestamp ≤ b.timestamp :=
  ⟨fun a b => le_total a.timestamp b.timestamp⟩

instance : IsTrans EmotionalMoment fun a b => a.timestamp ≤ b.timestamp :=
  ⟨fun _ _ _ hab hbc => le_trans hab hbc⟩

/-- `getKeyEmotionalMoments`: segments whose dominant sentiment channel
exceeds 0.7 and whose label is not neutral, as display rows sorted by
start time (the local `moments.sort` acts on the freshly built array, so
this function really is pure). -/
def getKeyEmotionalMoments (segments : List SegmentSentiment) : List EmotionalMoment :=
  if segments.isEmpty then []
  else
    let moments := segments.filterMap fun segment =>
      let scores := segment.sentiment_score
      let dominantScore :=
        max scores.Positive (max scores.Negative (max scores.Neutral scores.Mixed))
      if (0.7 : ℚ) < dominantScore ∧ segment.sentiment ≠ "NEUTRAL" then
        some { time := formatTimestamp segment.start_time
               timestamp := segment.start_time
               sentiment := segment.sentiment
               text := String.mk (segment.text.data.take 50) ++
                 (if 50 < segment.text.data.length then "..." else "")
               score := dominantScore }
      else none
    List.insertionSort (fun a b => a.timestamp ≤ b.timestamp) moments

/-- The sentiment-change count of the index loop of
`generateEmotionalInsight` (the loop compares each segment with its
predecessor). -/
def pairSentimentChanges : List SegmentSentiment → Nat
  | a :: b :: rest =>
    (if b.sentiment ≠ a.sentiment then 1 else 0) + pairSentimentChanges (b :: rest)
  | _ => 0

/-- `generateEmotionalInsight`.  The source function receives a
reference to the caller's `segments` array and calls
`segments.reverse()` — the in-place JavaScript reversal — in the branch
with both negative and positive spikes; the embedding therefore returns,
next to the insight string, the final contents of the caller's array. -/
def generateEmotionalInsight (overallSentiment : String) (segments : List SegmentSentiment) :
    String × List SegmentSentiment :=
  if segments.isEmpty then
    ("Overall emotional state: " ++ overallSentiment.toLower, segments)
  else
    let sentimentChanges := pairSentimentChanges segments
    let negativeSpikes := (segments.drop 1).countP fun s =>
      s.sentiment = "NEGATIVE" ∧ (0.7 : ℚ) < s.sentiment_score.Negative
    let positiveSpikes := (segments.drop 1).countP fun s =>
      s.sentiment = "POSITIVE" ∧ (0.7 : ℚ) < s.sentiment_score.Positive
    if overallSentiment = "POSITIVE" ∧ negativeSpikes = 0 then
      ("Patient maintained positive affect throughout conversation with stable emotional state.",
       segments)
    else if overallSentiment = "NEGATIVE" then
      ("Patient expressed distress during conversation. " ++ toString negativeSpikes ++
        " moment" ++ (if negativeSpikes ≠ 1 then "s" else "") ++
        " of heightened concern detected.", segments)
    else if (segments.length : ℚ) * 0.5 < (sentimentChanges : ℚ) then
      ("Emotional state fluctuated throughout conversation with " ++
        toString sentimentChanges ++
        " sentiment shifts. Consider follow-up on patient concerns.", segments)
    else if 0 < negativeSpikes ∧ 0 < positiveSpikes then
      let firstNegative := segments.find? fun s =>
        s.sentiment = "NEGATIVE" ∧ (0.7 : ℚ) < s.sentiment_score.Negative
      -- segments.reverse() reverses the caller's array in place; every
      -- later read of the variable sees the reversed contents
      let reversed := segments.reverse
      let lastPositive := reversed.find? fun s =>
        s.sentiment = "POSITIVE" ∧ (0.7 : ℚ) < s.sentiment_score.Positive
      match firstNegative, lastPositive with
      | some fn, some lp =>
        if fn.start_time < lp.start_time then
          ("Brief distress detected at " ++ formatTimestamp fn.start_time ++
            ", resolved by " ++ formatTimestamp lp.start_time ++
            ". Patient showed emotional resilience.", reversed)
        else
          ("Mixed emotional responses noted. Patient expressed both concerns and positive reactions during visit.",
           reversed)
      | _, _ =>
        ("Mixed emotional responses noted. Patient expressed both concerns and positive reactions during visit.",
         reversed)
    else if overallSentiment = "NEUTRAL" then
      ("Patient maintained neutral emotional state throughout conversation. No significant distress or elevated positive affect detected.",
       segments)
    else
      ("Emotional state remained stable throughout the conversation.", segments)

/-- A negative sentiment segment with a strong negative score. -/
def negSeg (t : ℚ) : SegmentSentiment :=
  { text := "t", sentiment := "NEGATIVE"
    sentiment_score := { Positive := 0, Negative := 0.8, Neutral := 0, Mixed := 0 }
    start_time := t, end_time := t + 1 }

/-- A positive sentiment segment with a strong positive score. -/
def posSeg (t : ℚ) : SegmentSentiment :=
  { text := "t", sentiment := "POSITIVE"
    sentiment_score := { Positive := 0.8, Negative := 0, Neutral := 0, Mixed := 0 }
    start_time := t, end_time := t + 1 }

/-- Six-segment input on which `generateEmotionalInsight` takes the
branch containing `segments.reverse()`. -/
def mutationSegments : List SegmentSentiment :=
  [negSeg 0, negSeg 1, negSeg 2, posSeg 3, posSeg 4, posSeg 5]

/-- Claim C7: on `mutationSegments` with overall sentiment NEUTRAL the
function reaches the mixed-spikes branch, where the in-place
`segments.reverse()` leaves the caller's array reversed — and the
reversed array differs from the original — so `generateEmotionalInsight`
modifies its input array, contradicting the claimed purity of every
MetricsEngine function. -/
theorem C7_insight_mutates_input :
    (generateEmotionalInsight "NEUTRAL" mutationSegments).2 = mutationSegments.reverse ∧
    mutationSegments.reverse ≠ mutationSegments := by
  constructor
  · have hneg : ((mutationSegments.drop 1).countP fun s =>
        s.sentiment = "NEGATIVE" ∧ (0.7 : ℚ) < s.sentiment_score.Negative) = 2 := by
      norm_num [mutationSegments, negSeg, posSeg, List.countP_cons, List.countP_nil]
    have hpos : ((mutationSegments.drop 1).countP fun s =>
        s.sentiment = "POSITIVE" ∧ (0.7 : ℚ) < s.sentiment_score.Positive) = 3 := by
      norm_num [mutationSegments, negSeg, posSeg, List.countP_cons, List.countP_nil]
    have hch : pairSentimentChanges mutationSegments = 1 := by
      norm_num [mutationSegments, negSeg, posSeg, pairSentimentChanges]
      decide
    have hfindn : (mutationSegments.find? fun s =>
        s.sentiment = "NEGATIVE" ∧ (0.7 : ℚ) < s.sentiment_score.Negative) = some (negSeg 0) := by
      norm_num [mutationSegments, negSeg, posSeg, List.find?]
    have hrev : mutationSegments.reverse =
        [posSeg 5, posSeg 4, posSeg 3, negSeg 2, negSeg 1, negSeg 0] := rfl
    have hfindp : (mutationSegments.reverse.find? fun s =>
        s.sentiment = "POSITIVE" ∧ (0.7 : ℚ) < s.sentiment_score.Positive) = some (posSeg 5) := by
      rw [hrev]
      norm_num [negSeg, posSeg, List.find?]
    have hlen : mutationSegments.length = 6 := rfl
    have hie : mutationSegments.isEmpty = false := rfl
    simp only [generateEmotionalInsight, hie, Bool.false_eq_true, if_false,
      hneg, hpos, hch, hlen, hfindn, hfindp]
    norm_num [negSeg, posSeg]
    rw [if_neg (by decide : ¬ ("NEUTRAL" : String) = "NEGATIVE")]
  · intro h
    have h2 := congrArg (fun l => List.map SegmentSentiment.sentiment l) h
    simp [mutationSegments, negSeg, posSeg] at h2

/-! ## ArtifactLocator (lib/s3-helpers.ts and the summary route) -/

/-- Artifact kinds with a derived storage location. -/
inductive ArtifactKind
  | transcript
  | analysis
  | summary
  deriving DecidableEq, Repr

/-- `parts[parts.length - 1]`: the last element of a non-empty parts
list (the split result is never empty). -/
def lastPart : List (List Char) → List Char
  | [] => []
  | [x] => x
  | _ :: y :: ys => lastPart (y :: ys)

/-- `String.prototype.lastIndexOf(".")` on the character list: index of
the last dot, or none. -/
def lastIndexOfDot : List Char → Option Nat
  | [] => none
  | c :: cs =>
    match lastIndexOfDot cs with
    | some i => some (i + 1)
    | none => if c = '.' then some 0 else none

/-- `extractBaseFileName` from lib/s3-helpers.ts: last `/`-separated
part, with the extension stripped only when the last dot sits at an
index greater than 0 (`lastDotIndex > 0` in the source). -/
def extractBaseFileName (s3Key : String) : String :=
  let parts := splitOnPred (fun c => c = '/') s3Key.data
  let fileNameWithExt := lastPart parts
  match lastIndexOfDot fileNameWithExt with
  | some lastDotIndex =>
    if 0 < lastDotIndex then String.mk (fileNameWithExt.take lastDotIndex)
    else String.mk fileNameWithExt
  | none => String.mk fileNameWithExt

/-- `buildTranscriptKey` from lib/s3-helpers.ts. -/
def buildTranscriptKey (baseFileName : String) : String :=
  "transcript/" ++ baseFileName ++ ".json"

/-- `buildAnalysisKey` from lib/s3-helpers.ts. -/
def buildAnalysisKey (baseFileName : String) : String :=
  "analysis/" ++ baseFileName ++ ".json"

/-- The summary key built inline by `app/api/recordings/summary/route.ts`
line 75. -/
def buildSummaryKey (baseFileName : String) : String :=
  "summaries/" ++ baseFileName ++ ".json"

/-- The folder per artifact kind. -/
def kindFolder : ArtifactKind → String
  | .transcript => "transcript"
  | .analysis => "analysis"
  | .summary => "summaries"

/-- The locator of the specification: `extractBaseFileName` composed
with the kind-specific key builder, exactly as the three API routes do
it. -/
def locate (resourceKey : String) (kind : ArtifactKind) : String :=
  match kind with
  | .transcript => buildTranscriptKey (extractBaseFileName resourceKey)
  | .analysis => buildAnalysisKey (extractBaseFileName resourceKey)
  | .summary => buildSummaryKey (extractBaseFileName resourceKey)

/-- The last `/`-separated segment of a key. -/
def segOf (key : String) : List Char :=
  lastPart (splitOnPred (fun c => c = '/') key.data)

theorem splitOnPred_ne_nil (p : Char → Bool) (cs : List Char) :
    splitOnPred p cs ≠ [] := by
  cases cs with
  | nil => simp [splitOnPred]
  | cons c cs =>
    by_cases hc : p c
    · simp [splitOnPred, hc]
    · simp only [splitOnPred, hc, Bool.false_eq_true, if_false]
      cases h : splitOnPred p cs <;> simp

theorem lastPart_cons_of_ne_nil (x : List Char) (r : List (List Char)) (h : r ≠ []) :
    lastPart (x :: r) = lastPart r := by
  cases r with
  | nil => exact absurd rfl h
  | cons y ys => rfl

theorem splitOnPred_length_one_iff (p : Char → Bool) (cs : List Char) :
    (splitOnPred p cs).length = 1 ↔ ∀ c ∈ cs, p c = false := by
  induction cs with
  | nil => simp [splitOnPred]
  | cons c cs ih =>
    by_cases hc : p c
    · have hne := splitOnPred_ne_nil p cs
      constructor
      · intro h
        exfalso
        cases hr : splitOnPred p cs with
        | nil => exact hne hr
        | cons y ys => simp [splitOnPred, hc, hr] at h
      · intro h
        exact absurd (h c (List.mem_cons_self c cs)) (by simp [hc])
    · cases hr : splitOnPred p cs with
      | nil => exact absurd hr (splitOnPred_ne_nil p cs)
      | cons y ys =>
        have : splitOnPred p (c :: cs) = (c :: y) :: ys := by
          simp [splitOnPred, hc, hr]
        rw [this]
        simp only [List.length_cons, List.mem_cons]
        constructor
        · intro h
          have hys : ys = [] := by
            cases ys with
            | nil => rfl
            | cons z zs => simp at h
          intro d hd
          rcases hd with hd | hd
          · subst hd; simpa using hc
          · exact (ih.mp (by rw [hr, hys]; rfl)) d hd
        · intro h
          have h2 := ih.mpr fun d hd => h d (Or.inr hd)
          rw [hr] at h2
          simp only [List.length_cons] at h2
          omega

/-- The last part of the split is a suffix of the input lying after the
last separator: the input splits as `pre ++ seg` with `seg`
separator-free and `pre` empty or ending in a separator. -/
theorem lastPart_splitOnPred_spec (p : Char → Bool) (cs : List Char) :
    ∃ pre, cs = pre ++ lastPart (splitOnPred p cs) ∧
      (∀ c ∈ lastPart (splitOnPred p cs), p c = false) ∧
      (pre = [] ∨ ∃ (d : Char) (pre' : List Char), pre = pre' ++ [d] ∧ p d = true) := by
  induction cs with
  | nil => exact ⟨[], rfl, by simp [splitOnPred, lastPart], Or.inl rfl⟩
  | cons c cs ih =>
    obtain ⟨pre, hpre, hseg, hlast⟩ := ih
    by_cases hc : p c
    · have hsplit : splitOnPred p (c :: cs) = [] :: splitOnPred p cs := by
        simp [splitOnPred, hc]
      have hlp : lastPart (splitOnPred p (c :: cs)) = lastPart (splitOnPred p cs) := by
        rw [hsplit]
        exact lastPart_cons_of_ne_nil _ _ (splitOnPred_ne_nil p cs)
      refine ⟨c :: pre, ?_, hlp ▸ hseg, ?_⟩
      · rw [hlp]; simpa using congrArg (c :: ·) hpre
      · rcases hlast with h0 | ⟨d, pre', hpe, hpd⟩
        · exact Or.inr ⟨c, [], by simp [h0], hc⟩
        · exact Or.inr ⟨d, c :: pre', by simp [hpe], hpd⟩
    · cases hr : splitOnPred p cs with
      | nil => exact absurd hr (splitOnPred_ne_nil p cs)
      | cons y ys =>
        have hsplit : splitOnPred p (c :: cs) = (c :: y) :: ys := by
          simp [splitOnPred, hc, hr]
        cases hys : ys with
        | nil =>
          -- a single remaining part: the whole of cs is separator-free
          have hfree : ∀ d ∈ cs, p d = false := by
            apply (splitOnPred_length_one_iff p cs).mp
            rw [hr, hys]; rfl
          have hy : lastPart (splitOnPred p cs) = y := by rw [hr, hys]; rfl
          have hcs : cs = y := by
            rcases hlast with h0 | ⟨d, pre', hpe, hpd⟩
            · rw [hpre, h0, hy]; rfl
            · exfalso
              have hd : d ∈ cs := by
                rw [hpre, hpe]; simp
              exact absurd (hfree d hd) (by simp [hpd])
          refine ⟨[], ?_, ?_, Or.inl rfl⟩
          · rw [hsplit, hys]; simp [lastPart, hcs]
          · rw [hsplit, hys]
            intro d hd
            simp only [lastPart] at hd
            rcases List.mem_cons.mp hd with hd | hd
            · subst hd; simpa using hc
            · exact hfree d (hcs ▸ hd)
        | cons z zs =>
          have hlp : lastPart (splitOnPred p (c :: cs)) = lastPart (splitOnPred p cs) := by
            rw [hsplit, hys, hr, hys]
            rfl
          have hpre_ne : pre ≠ [] := by
            intro h0
            have hfree : ∀ d ∈ cs, p d = false := by
              intro d hd
              exact hseg d (by rw [hpre, h0] at hd; simpa using hd)
            have hlen := (splitOnPred_length_one_iff p cs).mpr hfree
            rw [hr, hys] at hlen
            simp at hlen
          refine ⟨c :: pre, ?_, hlp ▸ hseg, ?_⟩
          · rw [hlp]; simpa using congrArg (c :: ·) hpre
          · rcases hlast with h0 | ⟨d, pre', hpe, hpd⟩
            · exact absurd h0 hpre_ne
            · exact Or.inr ⟨d, c :: pre', by simp [hpe], hpd⟩

theorem lastIndexOfDot_none_iff (cs : List Char) :
    lastIndexOfDot cs = none ↔ '.' ∉ cs := by
  induction cs with
  | nil => simp [lastIndexOfDot]
  | cons c cs ih =>
    cases h : lastIndexOfDot cs with
    | some i =>
      simp only [lastIndexOfDot, h, List.mem_cons]
      constructor
      · intro hh; cases hh
      · intro hh
        exfalso
        have : '.' ∉ cs := fun hmem => hh (Or.inr hmem)
        rw [← ih] at this
        rw [h] at this
        cases this
    | none =>
      by_cases hc : c = '.'
      · subst hc
        simp [lastIndexOfDot, h]
      · simp only [lastIndexOfDot, h, hc, if_false, List.mem_cons]
        constructor
        · intro _ hmem
          rcases hmem with hmem | hmem
          · exact hc hmem.symm
          · exact (ih.mp h) hmem
        · intro _; trivial

theorem lastIndexOfDot_spec (cs : List Char) (i : Nat) (h : lastIndexOfDot cs = some i) :
    cs = cs.take i ++ '.' :: cs.drop (i + 1) ∧ '.' ∉ cs.drop (i + 1) ∧ i < cs.length := by
  induction cs generalizing i with
  | nil => cases h
  | cons c cs ih =>
    cases hh : lastIndexOfDot cs with
    | some j =>
      have hi : i = j + 1 := by
        simp only [lastIndexOfDot, hh] at h
        exact (Option.some.inj h).symm
      subst hi
      obtain ⟨h1, h2, h3⟩ := ih j hh
      refine ⟨?_, h2, ?_⟩
      · exact congrArg (c :: ·) h1
      · simp only [List.length_cons]
        omega
    | none =>
      by_cases hc : c = '.'
      · subst hc
        have hi : i = 0 := by
          simp only [lastIndexOfDot, hh, if_pos rfl] at h
          exact (Option.some.inj h).symm
        subst hi
        refine ⟨rfl, ?_, by simp⟩
        simpa using (lastIndexOfDot_none_iff cs).mp hh
      · simp only [lastIndexOfDot, hh, hc, if_false] at h
        cases h

theorem lastIndexOfDot_unique (a b : List Char) (h : '.' ∉ b) :
    lastIndexOfDot (a ++ '.' :: b) = some a.length := by
  induction a with
  | nil =>
    have hb : lastIndexOfDot b = none := (lastIndexOfDot_none_iff b).mpr h
    simp [lastIndexOfDot, hb]
  | cons c a ih =>
    simp [lastIndexOfDot, ih]

/-- Modelled from the claim statement: the base name rule as the claim
words it — final path segment with everything after and including the
last dot stripped unconditionally. -/
def claimBaseName (s3Key : String) : String :=
  match lastIndexOfDot (segOf s3Key) with
  | some i => String.mk ((segOf s3Key).take i)
  | none => String.mk (segOf s3Key)

/-- Claim C4, counterexample: for a segment whose last dot is its first
character (a dotfile such as `.bashrc`) the source keeps the segment
whole (`lastDotIndex > 0` fails), while the claimed rule strips from the
last dot; the two locations differ. -/
theorem C4_dotfile_kept_whole :
    locate ".bashrc" ArtifactKind.transcript = "transcript/.bashrc.json" ∧
    "transcript/" ++ claimBaseName ".bashrc" ++ ".json" = "transcript/.json" ∧
    locate ".bashrc" ArtifactKind.transcript ≠
      "transcript/" ++ claimBaseName ".bashrc" ++ ".json" := by
  refine ⟨by decide, by decide, by decide⟩

theorem extractBaseFileName_eq (key : String) :
    extractBaseFileName key =
      match lastIndexOfDot (segOf key) with
      | some i => if 0 < i then String.mk ((segOf key).take i) else String.mk (segOf key)
      | none => String.mk (segOf key) := rfl

/-- Claim C4 (amended): `locate` is total and deterministic, always
produces `"{kindFolder}/{baseName}.json"`, maps the example key
`a/b/123-name.mp4` to `transcript/123-name.json`, and yields
deterministic strings on malformed input; `baseName` is the final
`/`-separated segment of the key with everything from the last `.`
onward stripped, except that a segment whose last `.` is its first
character (or which has no `.`) is kept whole. -/
theorem C4_locate_derivation (key : String) (kind : ArtifactKind) :
    locate key kind = kindFolder kind ++ "/" ++ extractBaseFileName key ++ ".json" ∧
    locate "a/b/123-name.mp4" ArtifactKind.transcript = "transcript/123-name.json" ∧
    locate "" ArtifactKind.transcript = "transcript/.json" ∧
    locate "noext" ArtifactKind.analysis = "analysis/noext.json" ∧
    (∃ pre, key.data = pre ++ segOf key ∧ '/' ∉ segOf key ∧
      (pre = [] ∨ ∃ pre', pre = pre' ++ ['/'])) ∧
    ((∃ a b, segOf key = a ++ '.' :: b ∧ '.' ∉ b ∧ a ≠ [] ∧
        (extractBaseFileName key).data = a) ∨
     ((∀ a b, '.' ∉ b → segOf key = a ++ '.' :: b → a = []) ∧
        (extractBaseFileName key).data = segOf key)) := by
  refine ⟨?_, by decide, by decide, by decide, ?_, ?_⟩
  · cases kind with
    | transcript =>
      show ("transcript/" ++ extractBaseFileName key) ++ ".json" =
        (("transcript" ++ "/") ++ extractBaseFileName key) ++ ".json"
      rw [show ("transcript" ++ "/" : String) = "transcript/" from by decide]
    | analysis =>
      show ("analysis/" ++ extractBaseFileName key) ++ ".json" =
        (("analysis" ++ "/") ++ extractBaseFileName key) ++ ".json"
      rw [show ("analysis" ++ "/" : String) = "analysis/" from by decide]
    | summary =>
      show ("summaries/" ++ extractBaseFileName key) ++ ".json" =
        (("summaries" ++ "/") ++ extractBaseFileName key) ++ ".json"
      rw [show ("summaries" ++ "/" : String) = "summaries/" from by decide]
  · obtain ⟨pre, hpre, hfree, hlast⟩ :=
      lastPart_splitOnPred_spec (fun c => c = '/') key.data
    refine ⟨pre, hpre, ?_, ?_⟩
    · intro hmem
      have := hfree '/' hmem
      simp at this
    · rcases hlast with h0 | ⟨d, pre', hpe, hpd⟩
      · exact Or.inl h0
      · have hd : d = '/' := by simpa using hpd
        exact Or.inr ⟨pre', by rw [hpe, hd]⟩
  · cases hdot : lastIndexOfDot (segOf key) with
    | none =>
      refine Or.inr ⟨?_, ?_⟩
      · intro a b hb heq
        exfalso
        have : '.' ∉ segOf key := (lastIndexOfDot_none_iff _).mp hdot
        exact this (by rw [heq]; simp)
      · show (extractBaseFileName key).data = segOf key
        rw [extractBaseFileName_eq, hdot]
    | some i =>
      by_cases hi : 0 < i
      · obtain ⟨h1, h2, h3⟩ := lastIndexOfDot_spec _ _ hdot
        refine Or.inl ⟨(segOf key).take i, (segOf key).drop (i + 1), h1, h2, ?_, ?_⟩
        · intro h0
          have := congrArg List.length h0
          rw [List.length_take] at this
          simp only [List.length_nil] at this
          omega
        · show (extractBaseFileName key).data = (segOf key).take i
          rw [extractBaseFileName_eq, hdot]
          show (if 0 < i then String.mk ((segOf key).take i)
            else String.mk (segOf key)).data = (segOf key).take i
          rw [if_pos hi]
      · have hi0 : i = 0 := by omega
        subst hi0
        refine Or.inr ⟨?_, ?_⟩
        · intro a b hb heq
          have := lastIndexOfDot_unique a b hb
          rw [← heq, hdot] at this
          have hlen := Option.some.inj this
          exact List.eq_nil_of_length_eq_zero hlen.symm
        · show (extractBaseFileName key).data = segOf key
          rw [extractBaseFileName_eq, hdot]
          show (if 0 < 0 then String.mk ((segOf key).take 0)
            else String.mk (segOf key)).data = segOf key
          rw [if_neg (by omega : ¬ 0 < 0)]

/-- Witness for the amended claim C4 at the example key of the
specification. -/
theorem C4_locate_derivation_witness :
    locate "a/b/123-name.mp4" ArtifactKind.transcript = "transcript/123-name.json" ∧
    locate "a/b/123-name.mp4" ArtifactKind.transcript =
      kindFolder ArtifactKind.transcript ++ "/" ++
        extractBaseFileName "a/b/123-name.mp4" ++ ".json" :=
  ⟨(C4_locate_derivation "a/b/123-name.mp4" ArtifactKind.transcript).2.1,
   (C4_locate_derivation "a/b/123-name.mp4" ArtifactKind.transcript).1⟩

end Auralis
